import Mathlib

/-!
Verification development for the crswitch repository.

The numerical core lives in src/crswitch/util/helpers.py
(generate_points, approximate_transform, interpolate_polygon) and is
consumed by src/crswitch/projector.py (class Projector).  Python integer
arithmetic (the operators // and %) is floor division and floored
remainder, embedded here as Int.fdiv and Int.fmod.  Float arithmetic is
embedded over an arbitrary linear ordered field, i.e. exact arithmetic.
-/

namespace crswitch

/-- Embedding of the local list x_s of generate_points in helpers.py:
the midpoints b * i + (b - 1) // 2 of the full blocks of [0, x_range),
and, when x_range % b is nonzero, the extra trailing index
b * (x_range // b) + max(b - 1, (x_range - 1) % b) // 2. -/
def x_samples (x_range b : Int) : List Int :=
  let full := (List.range (x_range.fdiv b).toNat).map
    (fun (i : Nat) => b * (i : Int) + (b - 1).fdiv 2)
  if x_range.fmod b ≠ 0 then
    full ++ [b * (x_range.fdiv b) + (max (b - 1) ((x_range - 1).fmod b)).fdiv 2]
  else full

/-- Embedding of the local list y_s of generate_points in helpers.py.
Exactly as in the source, the trailing term reads x_range (not y_range)
inside the max. -/
def y_samples (x_range y_range b : Int) : List Int :=
  let full := (List.range (y_range.fdiv b).toNat).map
    (fun (i : Nat) => b * (i : Int) + (b - 1).fdiv 2)
  if y_range.fmod b ≠ 0 then
    full ++ [b * (y_range.fdiv b) + (max (b - 1) ((x_range - 1).fmod b)).fdiv 2]
  else full

/-- Embedding of generate_points from helpers.py: the cross product
[(x, y) for x in x_s for y in y_s], outer loop over x, inner over y.
The Python default for b is 3. -/
def generate_points (x_range y_range : Int) (b : Int := 3) : List (Int × Int) :=
  (x_samples x_range b).bind
    (fun x => (y_samples x_range y_range b).map (fun y => (x, y)))

section Fitter

variable {K : Type} [LinearOrderedField K]

/-- Sum of the values of f over a list, used below to express the entries
of the matrix products of the least squares system. -/
def sumBy {α : Type} (l : List α) (f : α → K) : K := (l.map f).sum

/-- Entry sum of squares of x of the Gram matrix AᵀA, where A is the
matrix with rows (x, y, 1) built by approximate_transform. -/
def Sxx (ps : List (K × K)) : K := sumBy ps (fun p => p.1 * p.1)

/-- Entry sum of x·y of the Gram matrix AᵀA. -/
def Sxy (ps : List (K × K)) : K := sumBy ps (fun p => p.1 * p.2)

/-- Entry sum of x of the Gram matrix AᵀA. -/
def Sx (ps : List (K × K)) : K := sumBy ps (fun p => p.1)

/-- Entry sum of squares of y of the Gram matrix AᵀA. -/
def Syy (ps : List (K × K)) : K := sumBy ps (fun p => p.2 * p.2)

/-- Entry sum of y of the Gram matrix AᵀA. -/
def Sy (ps : List (K × K)) : K := sumBy ps (fun p => p.2)

/-- Entry sum of ones of the Gram matrix AᵀA, i.e. the number of rows. -/
def Sn (ps : List (K × K)) : K := sumBy ps (fun _ => 1)

/-- Determinant of the symmetric 3×3 matrix with rows (sxx, sxy, sx),
(sxy, syy, sy), (sx, sy, n). -/
def det3 (sxx sxy sx syy sy n : K) : K :=
  sxx * (syy * n - sy * sy) - sxy * (sxy * n - sy * sx)
    + sx * (sxy * sy - syy * sx)

/-- Solution of the 3×3 linear system M u = v for the symmetric matrix M
of det3, by the adjugate formula u = adj(M) v / det(M). -/
def solve3 (sxx sxy sx syy sy n v1 v2 v3 : K) : K × K × K :=
  let det := det3 sxx sxy sx syy sy n
  (((syy * n - sy * sy) * v1 + (sx * sy - sxy * n) * v2
      + (sxy * sy - syy * sx) * v3) / det,
   ((sx * sy - sxy * n) * v1 + (sxx * n - sx * sx) * v2
      + (sx * sxy - sxx * sy) * v3) / det,
   ((sxy * sy - syy * sx) * v1 + (sx * sxy - sxx * sy) * v2
      + (sxx * syy - sxy * sxy) * v3) / det)

/-- Determinant of the Gram matrix AᵀA of the system built by
approximate_transform from its source points; it is nonzero exactly when
the source points are not all collinear, i.e. when A has full column
rank. -/
def detM (ps : List (K × K)) : K :=
  det3 (Sxx ps) (Sxy ps) (Sx ps) (Syy ps) (Sy ps) (Sn ps)

/-- Cramer solution of the symmetric 2×2 system with entries m11, m12,
m22 and right-hand side (w1, w2). -/
def solve2 (m11 m12 m22 w1 w2 : K) : K × K :=
  ((m22 * w1 - m12 * w2) / (m11 * m22 - m12 * m12),
   (m11 * w2 - m12 * w1) / (m11 * m22 - m12 * m12))

/-- Solver for the normal equations M u = v of the Gram system, total
over all ranks of the symmetric positive semidefinite matrix M of det3:
full rank uses the 3×3 adjugate formula; otherwise a nonsingular
principal 2×2 block (which exists whenever the rank is 2, M being a Gram
matrix) is solved with the remaining coordinate set to 0; otherwise a
nonzero diagonal entry carries the whole solution; a zero matrix returns
0.  For a right-hand side of the form v = Aᵀb the result is always a
solution of M u = v, hence a least squares solution of A u ≈ b. -/
def solveGram (sxx sxy sx syy sy n v1 v2 v3 : K) :
    K × K × K :=
  if det3 sxx sxy sx syy sy n ≠ 0 then
    solve3 sxx sxy sx syy sy n v1 v2 v3
  else if sxx * syy - sxy * sxy ≠ 0 then
    ((solve2 sxx sxy syy v1 v2).1, (solve2 sxx sxy syy v1 v2).2, 0)
  else if sxx * n - sx * sx ≠ 0 then
    ((solve2 sxx sx n v1 v3).1, 0, (solve2 sxx sx n v1 v3).2)
  else if syy * n - sy * sy ≠ 0 then
    (0, (solve2 syy sy n v2 v3).1, (solve2 syy sy n v2 v3).2)
  else if sxx ≠ 0 then (v1 / sxx, 0, 0)
  else if syy ≠ 0 then (0, v2 / syy, 0)
  else if n ≠ 0 then (0, 0, v3 / n)
  else (0, 0, 0)

/-- Modelled from np.linalg.lstsq (external library, not part of this
repository): a least squares solution of A X ≈ B for the 3-column
matrix A with rows (x, y, 1) over points_from and B with rows (x′, y′)
over points_to, computed one column of X at a time as a solution of the
normal equations AᵀA X = AᵀB, which exist for every input (any such
solution minimizes the residual; when AᵀA is invertible it is the
unique library solution, and in the rank-deficient case the claims
proved here use only the minimizing property, which every normal
solution shares with the minimum-norm solution the library picks). -/
def lstsq (pf pt : List (K × K)) :
    (K × K × K) × (K × K × K) :=
  (solveGram (Sxx pf) (Sxy pf) (Sx pf) (Syy pf) (Sy pf) (Sn pf)
      (sumBy (pf.zip pt) (fun q => q.1.1 * q.2.1))
      (sumBy (pf.zip pt) (fun q => q.1.2 * q.2.1))
      (sumBy (pf.zip pt) (fun q => q.2.1)),
   solveGram (Sxx pf) (Sxy pf) (Sx pf) (Syy pf) (Sy pf) (Sn pf)
      (sumBy (pf.zip pt) (fun q => q.1.1 * q.2.2))
      (sumBy (pf.zip pt) (fun q => q.1.2 * q.2.2))
      (sumBy (pf.zip pt) (fun q => q.2.2)))

/-- Embedding of approximate_transform from helpers.py.  The length
guard models the incompatible-dimensions error that np.linalg.lstsq
raises when the two sequences have different numbers of rows; none is
that error case.  On success the source returns the 6-tuple
(x[0,0], x[1,0], x[2,0], x[0,1], x[1,1], x[2,1]): column 0 then column 1
of the solution matrix. -/
def approximate_transform (pf pt : List (K × K)) :
    Option (K × K × K × K × K × K) :=
  if pf.length = pt.length then
    let X := lstsq pf pt
    some (X.1.1, X.1.2.1, X.1.2.2, X.2.1, X.2.2.1, X.2.2.2)
  else none

/-- Application of an affine coefficient 6-tuple (a, b, c, d, e, f) to a
point: (x, y) goes to (a x + b y + c, d x + e y + f), the map described
throughout the spec. -/
def affineApply (t : K × K × K × K × K × K) (p : K × K) : K × K :=
  match t with
  | (a, b, c, d, e, f) => (a * p.1 + b * p.2 + c, d * p.1 + e * p.2 + f)

/-- Total squared residual of an affine coefficient tuple on the paired
points, the quantity that the least squares fit minimizes. -/
def residual (pf pt : List (K × K)) : K × K × K × K × K × K → K
  | (a, b, c, d, e, f) =>
    sumBy (pf.zip pt) (fun q =>
      (a * q.1.1 + b * q.1.2 + c - q.2.1) ^ 2 +
      (d * q.1.1 + e * q.1.2 + f - q.2.2) ^ 2)

end Fitter

section ProjectorDefs

variable {K : Type} [LinearOrderedField K]

/-- Embedding of interpolate_polygon from helpers.py: each of the n
segments (n counts the closing segment only when the polygon is not
self closing) contributes interpolation points stepping from its start
towards its end; a self closing polygon finally repeats its first
point.  Out-of-range indexing (possible only for the final
polygon[0] on an empty self closing polygon, where the Python length
n = -1 makes the loop empty) is the none case.  The source raises
ZeroDivisionError for interpolation = 0; callers guard that case by
truthiness, so it is unreachable through project_polygon. -/
def interpolate_polygon (polygon : List (K × K)) (interpolation : Int)
    (self_closing : Bool) : Option (List (K × K)) := do
  let n : Nat := polygon.length - (if self_closing then 1 else 0)
  let segs ← (List.range n).mapM (fun idx => do
    let p0 ← polygon.get? idx
    let p1 ← polygon.get? ((idx + 1) % n)
    let x_diff := (p1.1 - p0.1) / (interpolation : K)
    let y_diff := (p1.2 - p0.2) / (interpolation : K)
    pure ((List.range interpolation.toNat).map
      (fun (i : Nat) => (p0.1 + (i : K) * x_diff, p0.2 + (i : K) * y_diff))))
  let flat := segs.join
  if self_closing then do
    let h ← polygon.get? 0
    pure (flat ++ [h])
  else
    pure flat

/-- Embedding of the Projector class of projector.py.  Its constructor
wires an external CRS transformer or a user supplied function; either
way an instance is fully described by the point mapping _project_point,
the only state its methods read. -/
structure Projector (K : Type) where
  project_point : K × K → K × K

/-- Embedding of Projector.project_points. -/
def Projector.project_points (P : Projector K) (points : List (K × K)) :
    List (K × K) :=
  points.map (fun p => P.project_point p)

/-- Embedding of Projector.project_polygon: projects the interpolated
polygon when the interpolation argument is truthy (in Python neither
None nor 0), otherwise projects the polygon as given. -/
def Projector.project_polygon (P : Projector K) (polygon : List (K × K))
    (interpolation : Option Int) (self_closing : Bool) :
    Option (List (K × K)) :=
  match interpolation with
  | some i =>
    if i ≠ 0 then
      (interpolate_polygon polygon i self_closing).map
        (fun l => P.project_points l)
    else some (P.project_points polygon)
  | none => some (P.project_points polygon)

/-- Embedding of Projector.project_tuple_transform: push the source
points through the given pixel affine, project the images, and fit an
affine to the resulting pairs. -/
def Projector.project_tuple_transform (P : Projector K)
    (transform : K × K × K × K × K × K) (points_from : List (K × K)) :
    Option (K × K × K × K × K × K) :=
  match transform with
  | (a, b, c, d, e, f) =>
    approximate_transform points_from
      (P.project_points (points_from.map
        (fun p => (a * p.1 + b * p.2 + c, d * p.1 + e * p.2 + f))))

/-- Embedding of Projector.project_tuple_transform_grid: fit over the
sampler points of the grid.  The sampler yields integer points that
Python uses directly as numbers; the embedding makes that coercion
explicit.  The Python default for b is 3. -/
def Projector.project_tuple_transform_grid (P : Projector K)
    (transform : K × K × K × K × K × K) (x_range y_range : Int)
    (b : Int := 3) : Option (K × K × K × K × K × K) :=
  P.project_tuple_transform transform
    ((generate_points x_range y_range b).map
      (fun q => ((q.1 : K), (q.2 : K))))

end ProjectorDefs

section GeoJson

variable {K : Type} [LinearOrderedField K]

/-- GeoJSON values as handled by project_geojson_object: numbers,
strings, arrays and objects; an object is its ordered key-value list,
matching Python dict insertion order. -/
inductive GVal (K : Type) where
  | num : K → GVal K
  | str : String → GVal K
  | arr : List (GVal K) → GVal K
  | obj : List (String × GVal K) → GVal K

/-- The literal key "type" used by project_geojson_object. -/
def type_key : String := "type"

/-- The literal key "coordinates" used by project_geojson_object. -/
def coordinates_key : String := "coordinates"

/-- The literal key "geometries" used by project_geojson_object. -/
def geometries_key : String := "geometries"

/-- Update-or-append assignment on an ordered key-value list: the
semantics of d[k] = v on a Python dict. -/
def setKey (d : List (String × GVal K)) (k : String) (v : GVal K) :
    List (String × GVal K) :=
  match d with
  | [] => [(k, v)]
  | (k0, v0) :: rest =>
    if k0 = k then (k0, v) :: rest else (k0, v0) :: setKey rest k v

/-- The dict comprehension of project_geojson_object: keep every entry
whose key is neither coordinates nor geometries.  The source deep
copies each kept value; under the value semantics of this embedding a
deep copy is the value itself. -/
def dropSpecial (d : List (String × GVal K)) : List (String × GVal K) :=
  d.filter (fun kv => !(kv.1 == coordinates_key || kv.1 == geometries_key))

/-- A GeoJSON position: a 2-element array of numbers, the shape that
project_point consumes by iterable unpacking in the source. -/
def asPoint : GVal K → Option (K × K)
  | GVal.arr [GVal.num x, GVal.num y] => some (x, y)
  | _ => none

/-- A GeoJSON linear ring or line: an array of positions. -/
def asPointList (v : GVal K) : Option (List (K × K)) :=
  match v with
  | GVal.arr l => l.mapM asPoint
  | _ => none

/-- Rebuild a projected position as list(...) does in the source. -/
def ofPoint (p : K × K) : GVal K := GVal.arr [GVal.num p.1, GVal.num p.2]

/-- Rebuild a projected point list as list(map(list, ...)) does in the
source. -/
def ofPointList (l : List (K × K)) : GVal K := GVal.arr (l.map ofPoint)

/-- The new coordinates value computed by the non-collection branches of
project_geojson_object, in source branch order: Point, then
MultiPoint or LineString, then MultiLineString or Polygon, then
MultiPolygon; any other type is the TypeError case (none).  Shape
errors of the coordinate nesting are none as well, as the source would
raise while unpacking. -/
def geojson_coordinates (P : Projector K) (g : List (String × GVal K))
    (interpolation : Option Int) (geojson_type : String) :
    Option (GVal K) :=
  if geojson_type = "Point" then do
    let c ← List.lookup coordinates_key g
    let p ← asPoint c
    pure (ofPoint (P.project_point p))
  else if geojson_type = "MultiPoint" ∨ geojson_type = "LineString" then do
    let c ← List.lookup coordinates_key g
    let pts ← asPointList c
    let r ← P.project_polygon pts interpolation true
    pure (ofPointList r)
  else if geojson_type = "MultiLineString" ∨ geojson_type = "Polygon" then do
    let c ← List.lookup coordinates_key g
    match c with
    | GVal.arr shapes => do
      let rs ← shapes.mapM (fun s => do
        let pts ← asPointList s
        let r ← P.project_polygon pts interpolation true
        pure (ofPointList r))
      pure (GVal.arr rs)
    | _ => none
  else if geojson_type = "MultiPolygon" then do
    let c ← List.lookup coordinates_key g
    match c with
    | GVal.arr polys => do
      let rs ← polys.mapM (fun poly =>
        match poly with
        | GVal.arr rings => do
          let rr ← rings.mapM (fun ring => do
            let pts ← asPointList ring
            let r ← P.project_polygon pts interpolation true
            pure (ofPointList r))
          pure (GVal.arr rr)
        | _ => none)
      pure (GVal.arr rs)
    | _ => none
  else none

/-- Embedding of Projector.project_geojson_object.  The fuel argument
bounds the GeometryCollection recursion depth (in Python the recursion
is bounded only by the interpreter stack); the claims proved below
quantify over the fuel.  Every branch of the source assigns exactly one
key, coordinates or geometries, on the copied dict, so the dispatch is
factored into the assigned key and its value; checking the collection
branch first is immaterial because the type string selects at most one
branch.  A missing type key (Python KeyError), a non-string type value
and an unknown type string (Python TypeError) are all none. -/
def project_geojson_object (P : Projector K) (interpolation : Option Int) :
    Nat → List (String × GVal K) → Option (List (String × GVal K))
  | 0, _ => none
  | Nat.succ fuel, g =>
    (match List.lookup type_key g with
     | some (GVal.str t) =>
       if t = "GeometryCollection" then
         (match List.lookup geometries_key g with
          | some (GVal.arr items) =>
            (items.mapM (fun item =>
              match item with
              | GVal.obj d =>
                (project_geojson_object P interpolation fuel d).map GVal.obj
              | _ => none)).map
              (fun rs => (geometries_key, GVal.arr rs))
          | _ => none)
       else
         (geojson_coordinates P g interpolation t).map
           (fun v => (coordinates_key, v))
     | _ => none).map
      (fun (kv : String × GVal K) => setKey (dropSpecial g) kv.1 kv.2)

end GeoJson

end crswitch

namespace crswitch

lemma fmod_le_sub_one {a b : Int} (hb : 0 < b) : (a.fmod b) ≤ b - 1 := by
  rw [Int.fmod_eq_emod _ hb.le]
  have := Int.emod_lt_of_pos a hb
  omega

lemma max_trailing_eq {a b : Int} (hb : 0 < b) :
    max (b - 1) ((a - 1).fmod b) = b - 1 :=
  max_eq_left (fmod_le_sub_one hb)

/-- Length of a cross-product list built by bind and map. -/
lemma length_bind_map {α β γ : Type} (l₁ : List α) (l₂ : List β)
    (f : α → β → γ) :
    (l₁.bind (fun a => l₂.map (f a))).length = l₁.length * l₂.length := by
  induction l₁ with
  | nil => simp
  | cons a t ih => simp [ih]; ring

/-- Ceiling division identity used for the sample counts. -/
lemma ceil_div_split (x b : Int) (hb : 0 < b) :
    (x + b - 1) / b = x / b + (if x % b = 0 then 0 else 1) := by
  have hb0 : b ≠ 0 := hb.ne'
  split
  · rename_i h
    have hx : x + b - 1 = (b - 1) + b * (x / b) := by
      have := Int.emod_add_ediv x b
      omega
    rw [hx, Int.add_mul_ediv_left _ _ hb0,
      Int.ediv_eq_zero_of_lt (by omega) (by omega)]
    omega
  · rename_i h
    have hr0 : 0 ≤ x % b := Int.emod_nonneg x hb0
    have hrb : x % b < b := Int.emod_lt_of_pos x hb
    have hx : x + b - 1 = (x % b - 1) + b * (x / b + 1) := by
      have := Int.emod_add_ediv x b
      ring_nf
      omega
    rw [hx, Int.add_mul_ediv_left _ _ hb0,
      Int.ediv_eq_zero_of_lt (by omega) (by omega)]
    omega

lemma x_samples_length (x b : Int) (hx : 0 ≤ x) (hb : 0 < b) :
    (x_samples x b).length = (((x + b - 1).fdiv b)).toNat := by
  have hq : 0 ≤ x / b := Int.ediv_nonneg hx hb.le
  rw [Int.fdiv_eq_ediv _ hb.le, ceil_div_split x b hb]
  simp only [x_samples, Int.fmod_eq_emod _ hb.le, Int.fdiv_eq_ediv _ hb.le]
  split
  · rename_i h
    simp only [List.length_append, List.length_map, List.length_range,
      List.length_singleton, if_neg h]
    omega
  · rename_i h
    push_neg at h
    simp only [List.length_map, List.length_range, if_pos h]
    omega

lemma y_samples_length (x y b : Int) (hy : 0 ≤ y) (hb : 0 < b) :
    (y_samples x y b).length = (((y + b - 1).fdiv b)).toNat := by
  have hq : 0 ≤ y / b := Int.ediv_nonneg hy hb.le
  rw [Int.fdiv_eq_ediv _ hb.le, ceil_div_split y b hb]
  simp only [y_samples, Int.fmod_eq_emod _ hb.le, Int.fdiv_eq_ediv _ hb.le]
  split
  · rename_i h
    simp only [List.length_append, List.length_map, List.length_range,
      List.length_singleton, if_neg h]
    omega
  · rename_i h
    push_neg at h
    simp only [List.length_map, List.length_range, if_pos h]
    omega

end crswitch

namespace crswitch

/-- C2: the claim that every point of generate_points lies inside the
grid fails on the code: for x_range = y_range = 10 and block_size 3 the
trailing sample index is 9 + max(2, 0) // 2 = 10, so the point (10, 10)
is produced although 10 is outside [0, 10). -/
theorem generate_points_escapes_range :
    ((10 : Int), (10 : Int)) ∈ generate_points 10 10 3 ∧
    ¬ (∀ p ∈ generate_points 10 10 3,
        0 ≤ p.1 ∧ p.1 < 10 ∧ 0 ≤ p.2 ∧ p.2 < 10) := by
  constructor
  · decide
  · intro h
    have := h (10, 10) (by decide)
    omega

/-- C3: the x-axis samples of generate_points(10, 10, 3) are
[1, 4, 7, 10], not the set 1, 4, 7, 9 required by the spec: the sample 9
is absent and the out-of-range sample 10 appears instead. -/
theorem x_samples_10_3_eval :
    x_samples 10 3 = [1, 4, 7, 10] ∧
    (9 : Int) ∉ (generate_points 10 10 3).map Prod.fst ∧
    (10 : Int) ∈ (generate_points 10 10 3).map Prod.fst := by
  refine ⟨by decide, by decide, by decide⟩

end crswitch

namespace crswitch

section FitterLemmas

variable {K : Type} [LinearOrderedField K]

lemma sumBy_nil {α : Type} (f : α → K) : sumBy ([] : List α) f = 0 := rfl

lemma sumBy_cons {α : Type} (a : α) (l : List α) (f : α → K) :
    sumBy (a :: l) f = f a + sumBy l f := by
  simp [sumBy]

lemma sumBy_map {α β : Type} (l : List α) (f : α → β) (g : β → K) :
    sumBy (l.map f) g = sumBy l (fun a => g (f a)) := by
  simp only [sumBy, List.map_map]
  rfl

lemma sumBy_nonneg {α : Type} (l : List α) (f : α → K)
    (h : ∀ a, 0 ≤ f a) : 0 ≤ sumBy l f := by
  induction l with
  | nil => simp [sumBy_nil]
  | cons a t ih => rw [sumBy_cons]; exact add_nonneg (h a) ih

lemma sumBy_sq_nonneg {α : Type} (l : List α) (f : α → K) :
    0 ≤ sumBy l (fun a => f a ^ 2) :=
  sumBy_nonneg l _ (fun a => sq_nonneg (f a))

/-- Sums over the first components of a zip of equally long lists reduce
to sums over the first list. -/
lemma sumBy_fst_zip (pf pt : List (K × K)) (h : pf.length ≤ pt.length)
    (g : K × K → K) :
    sumBy (pf.zip pt) (fun q => g q.1) = sumBy pf g := by
  conv_rhs => rw [← List.map_fst_zip pf pt h]
  rw [sumBy_map]

/-- Zipping a list with a mapped copy of itself pairs each element with
its image. -/
lemma zip_self_map {α β : Type} (l : List α) (g : α → β) :
    l.zip (l.map g) = l.map (fun a => (a, g a)) := by
  have h := List.zip_map' (fun a => a) g l
  simpa using h

lemma solve3_eq1 (sxx sxy sx syy sy n v1 v2 v3 : K)
    (hdet : det3 sxx sxy sx syy sy n ≠ 0) :
    (solve3 sxx sxy sx syy sy n v1 v2 v3).1 * sxx
      + (solve3 sxx sxy sx syy sy n v1 v2 v3).2.1 * sxy
      + (solve3 sxx sxy sx syy sy n v1 v2 v3).2.2 * sx = v1 := by
  simp only [solve3, det3] at *
  field_simp
  ring

lemma solve3_eq2 (sxx sxy sx syy sy n v1 v2 v3 : K)
    (hdet : det3 sxx sxy sx syy sy n ≠ 0) :
    (solve3 sxx sxy sx syy sy n v1 v2 v3).1 * sxy
      + (solve3 sxx sxy sx syy sy n v1 v2 v3).2.1 * syy
      + (solve3 sxx sxy sx syy sy n v1 v2 v3).2.2 * sy = v2 := by
  simp only [solve3, det3] at *
  field_simp
  ring

lemma solve3_eq3 (sxx sxy sx syy sy n v1 v2 v3 : K)
    (hdet : det3 sxx sxy sx syy sy n ≠ 0) :
    (solve3 sxx sxy sx syy sy n v1 v2 v3).1 * sx
      + (solve3 sxx sxy sx syy sy n v1 v2 v3).2.1 * sy
      + (solve3 sxx sxy sx syy sy n v1 v2 v3).2.2 * n = v3 := by
  simp only [solve3, det3] at *
  field_simp
  ring

/-- Cramer solving is exact: feeding the matrix-vector product of the
Gram matrix with a vector u back into solve3 recovers u. -/
lemma solve3_recover (sxx sxy sx syy sy n u1 u2 u3 : K)
    (hdet : det3 sxx sxy sx syy sy n ≠ 0) :
    solve3 sxx sxy sx syy sy n
        (u1 * sxx + u2 * sxy + u3 * sx)
        (u1 * sxy + u2 * syy + u3 * sy)
        (u1 * sx + u2 * sy + u3 * n) = (u1, u2, u3) := by
  simp only [solve3, det3] at *
  refine Prod.ext ?_ (Prod.ext ?_ ?_) <;> simp only <;> field_simp <;> ring

end FitterLemmas

end crswitch

namespace crswitch

section FitterExpand

variable {K : Type} [LinearOrderedField K]

lemma sumBy_congr {α : Type} (l : List α) (f g : α → K)
    (h : ∀ a, f a = g a) : sumBy l f = sumBy l g := by
  induction l with
  | nil => simp [sumBy_nil]
  | cons a t ih => simp only [sumBy_cons, ih, h a]

lemma sumBy_x_lin (ps : List (K × K)) (a b c : K) :
    sumBy ps (fun p => p.1 * (a * p.1 + b * p.2 + c))
      = a * Sxx ps + b * Sxy ps + c * Sx ps := by
  induction ps with
  | nil => simp [Sxx, Sxy, Sx, sumBy_nil]
  | cons p l ih =>
    simp only [Sxx, Sxy, Sx, sumBy_cons] at ih ⊢
    linear_combination ih

lemma sumBy_y_lin (ps : List (K × K)) (a b c : K) :
    sumBy ps (fun p => p.2 * (a * p.1 + b * p.2 + c))
      = a * Sxy ps + b * Syy ps + c * Sy ps := by
  induction ps with
  | nil => simp [Sxy, Syy, Sy, sumBy_nil]
  | cons p l ih =>
    simp only [Sxy, Syy, Sy, sumBy_cons] at ih ⊢
    linear_combination ih

lemma sumBy_one_lin (ps : List (K × K)) (a b c : K) :
    sumBy ps (fun p => a * p.1 + b * p.2 + c)
      = a * Sx ps + b * Sy ps + c * Sn ps := by
  induction ps with
  | nil => simp [Sx, Sy, Sn, sumBy_nil]
  | cons p l ih =>
    simp only [Sx, Sy, Sn, sumBy_cons] at ih ⊢
    linear_combination ih

lemma zipSum_x_res (L : List ((K × K) × (K × K))) (u1 u2 u3 : K)
    (t : (K × K) × (K × K) → K) :
    sumBy L (fun q => (u1 * q.1.1 + u2 * q.1.2 + u3 - t q) * q.1.1)
      = u1 * sumBy L (fun q => q.1.1 * q.1.1)
        + u2 * sumBy L (fun q => q.1.1 * q.1.2)
        + u3 * sumBy L (fun q => q.1.1)
        - sumBy L (fun q => q.1.1 * t q) := by
  induction L with
  | nil => simp [sumBy_nil]
  | cons q l ih =>
    simp only [sumBy_cons]
    linear_combination ih

lemma zipSum_y_res (L : List ((K × K) × (K × K))) (u1 u2 u3 : K)
    (t : (K × K) × (K × K) → K) :
    sumBy L (fun q => (u1 * q.1.1 + u2 * q.1.2 + u3 - t q) * q.1.2)
      = u1 * sumBy L (fun q => q.1.1 * q.1.2)
        + u2 * sumBy L (fun q => q.1.2 * q.1.2)
        + u3 * sumBy L (fun q => q.1.2)
        - sumBy L (fun q => q.1.2 * t q) := by
  induction L with
  | nil => simp [sumBy_nil]
  | cons q l ih =>
    simp only [sumBy_cons]
    linear_combination ih

lemma zipSum_one_res (L : List ((K × K) × (K × K))) (u1 u2 u3 : K)
    (t : (K × K) × (K × K) → K) :
    sumBy L (fun q => u1 * q.1.1 + u2 * q.1.2 + u3 - t q)
      = u1 * sumBy L (fun q => q.1.1)
        + u2 * sumBy L (fun q => q.1.2)
        + u3 * sumBy L (fun _ => 1)
        - sumBy L t := by
  induction L with
  | nil => simp [sumBy_nil]
  | cons q l ih =>
    simp only [sumBy_cons]
    linear_combination ih

lemma zip_Sxx (pf pt : List (K × K)) (hle : pf.length ≤ pt.length) :
    sumBy (pf.zip pt) (fun q => q.1.1 * q.1.1) = Sxx pf := by
  simpa [Sxx] using sumBy_fst_zip pf pt hle (fun p => p.1 * p.1)

lemma zip_Sxy (pf pt : List (K × K)) (hle : pf.length ≤ pt.length) :
    sumBy (pf.zip pt) (fun q => q.1.1 * q.1.2) = Sxy pf := by
  simpa [Sxy] using sumBy_fst_zip pf pt hle (fun p => p.1 * p.2)

lemma zip_Sx (pf pt : List (K × K)) (hle : pf.length ≤ pt.length) :
    sumBy (pf.zip pt) (fun q => q.1.1) = Sx pf := by
  simpa [Sx] using sumBy_fst_zip pf pt hle (fun p => p.1)

lemma zip_Syy (pf pt : List (K × K)) (hle : pf.length ≤ pt.length) :
    sumBy (pf.zip pt) (fun q => q.1.2 * q.1.2) = Syy pf := by
  simpa [Syy] using sumBy_fst_zip pf pt hle (fun p => p.2 * p.2)

lemma zip_Sy (pf pt : List (K × K)) (hle : pf.length ≤ pt.length) :
    sumBy (pf.zip pt) (fun q => q.1.2) = Sy pf := by
  simpa [Sy] using sumBy_fst_zip pf pt hle (fun p => p.2)

lemma zip_Sn (pf pt : List (K × K)) (hle : pf.length ≤ pt.length) :
    sumBy (pf.zip pt) (fun _ => (1 : K)) = Sn pf := by
  simpa [Sn] using sumBy_fst_zip pf pt hle (fun _ => 1)

/-- Completing the square: the residual of any competitor tuple equals
the residual of the reference tuple plus two sums of squares plus cross
terms built from the normal equation residuals of the reference. -/
lemma residual_expand (L : List ((K × K) × (K × K)))
    (u1 u2 u3 u4 u5 u6 w1 w2 w3 w4 w5 w6 : K) :
    sumBy L (fun q => (w1 * q.1.1 + w2 * q.1.2 + w3 - q.2.1) ^ 2
        + (w4 * q.1.1 + w5 * q.1.2 + w6 - q.2.2) ^ 2)
      = sumBy L (fun q => (u1 * q.1.1 + u2 * q.1.2 + u3 - q.2.1) ^ 2
          + (u4 * q.1.1 + u5 * q.1.2 + u6 - q.2.2) ^ 2)
        + sumBy L (fun q =>
            ((w1 - u1) * q.1.1 + (w2 - u2) * q.1.2 + (w3 - u3)) ^ 2)
        + sumBy L (fun q =>
            ((w4 - u4) * q.1.1 + (w5 - u5) * q.1.2 + (w6 - u6)) ^ 2)
        + 2 * ((w1 - u1) * sumBy L
                (fun q => (u1 * q.1.1 + u2 * q.1.2 + u3 - q.2.1) * q.1.1)
             + (w2 - u2) * sumBy L
                (fun q => (u1 * q.1.1 + u2 * q.1.2 + u3 - q.2.1) * q.1.2)
             + (w3 - u3) * sumBy L
                (fun q => u1 * q.1.1 + u2 * q.1.2 + u3 - q.2.1)
             + (w4 - u4) * sumBy L
                (fun q => (u4 * q.1.1 + u5 * q.1.2 + u6 - q.2.2) * q.1.1)
             + (w5 - u5) * sumBy L
                (fun q => (u4 * q.1.1 + u5 * q.1.2 + u6 - q.2.2) * q.1.2)
             + (w6 - u6) * sumBy L
                (fun q => u4 * q.1.1 + u5 * q.1.2 + u6 - q.2.2)) := by
  induction L with
  | nil => simp [sumBy_nil]
  | cons q l ih =>
    simp only [sumBy_cons]
    linear_combination ih

end FitterExpand

section GramSolver

variable {K : Type} [LinearOrderedField K]

lemma sumBy_zero {α : Type} (l : List α) :
    sumBy l (fun _ => (0 : K)) = 0 := by
  induction l with
  | nil => rfl
  | cons a t ih => rw [sumBy_cons, ih, add_zero]

lemma sumBy_congr_mem {α : Type} (l : List α) (f g : α → K)
    (h : ∀ a ∈ l, f a = g a) : sumBy l f = sumBy l g := by
  induction l with
  | nil => rfl
  | cons a t ih =>
    rw [sumBy_cons, sumBy_cons, h a (List.mem_cons_self a t),
      ih (fun b hb => h b (List.mem_cons_of_mem a hb))]

/-- A vanishing sum of squares vanishes pointwise on the list. -/
lemma sq_sum_zero_mem {α : Type} (l : List α) (f : α → K)
    (h : sumBy l (fun a => f a ^ 2) = 0) : ∀ a ∈ l, f a = 0 := by
  induction l with
  | nil => intro a ha; simp at ha
  | cons b t ih =>
    rw [sumBy_cons] at h
    have h1 : 0 ≤ f b ^ 2 := sq_nonneg _
    have h2 : 0 ≤ sumBy t (fun a => f a ^ 2) := sumBy_sq_nonneg t f
    have hb : f b ^ 2 = 0 := by linarith
    have ht : sumBy t (fun a => f a ^ 2) = 0 := by linarith
    intro a ha
    rcases List.mem_cons.mp ha with rfl | ha2
    · exact sq_eq_zero_iff.mp hb
    · exact ih ht a ha2

/-- Expansion of the quadratic form of the Gram matrix. -/
lemma sumBy_qform (ps : List (K × K)) (c1 c2 c3 : K) :
    sumBy ps (fun p => (c1 * p.1 + c2 * p.2 + c3) ^ 2)
      = c1 * c1 * Sxx ps + 2 * (c1 * c2) * Sxy ps + c2 * c2 * Syy ps
        + 2 * (c1 * c3) * Sx ps + 2 * (c2 * c3) * Sy ps
        + c3 * c3 * Sn ps := by
  induction ps with
  | nil => simp [Sxx, Sxy, Syy, Sx, Sy, Sn, sumBy_nil]
  | cons p l ih =>
    simp only [Sxx, Sxy, Syy, Sx, Sy, Sn, sumBy_cons] at ih ⊢
    linear_combination ih

lemma zipSum_lin (L : List ((K × K) × (K × K))) (c1 c2 c3 : K)
    (t : (K × K) × (K × K) → K) :
    sumBy L (fun q => t q * (c1 * q.1.1 + c2 * q.1.2 + c3))
      = c1 * sumBy L (fun q => q.1.1 * t q)
        + c2 * sumBy L (fun q => q.1.2 * t q) + c3 * sumBy L t := by
  induction L with
  | nil => simp [sumBy_nil]
  | cons q l ih =>
    simp only [sumBy_cons]
    linear_combination ih

/-- A vanishing Gram quadratic form makes the corresponding linear
relation hold at every source point, hence in every weighted sum: the
four conjuncts are the relation summed against the target values of the
zip, against x, against y and against 1. -/
lemma pointwise_transfer (pf pt : List (K × K))
    (t : (K × K) × (K × K) → K) (c1 c2 c3 : K)
    (hq : sumBy pf (fun p => (c1 * p.1 + c2 * p.2 + c3) ^ 2) = 0) :
    c1 * sumBy (pf.zip pt) (fun q => q.1.1 * t q)
        + c2 * sumBy (pf.zip pt) (fun q => q.1.2 * t q)
        + c3 * sumBy (pf.zip pt) t = 0 ∧
    c1 * Sxx pf + c2 * Sxy pf + c3 * Sx pf = 0 ∧
    c1 * Sxy pf + c2 * Syy pf + c3 * Sy pf = 0 ∧
    c1 * Sx pf + c2 * Sy pf + c3 * Sn pf = 0 := by
  have hp : ∀ p ∈ pf, c1 * p.1 + c2 * p.2 + c3 = 0 :=
    sq_sum_zero_mem pf _ hq
  refine ⟨?_, ?_, ?_, ?_⟩
  · rw [← zipSum_lin (pf.zip pt) c1 c2 c3 t]
    rw [sumBy_congr_mem (pf.zip pt) _ (fun _ => 0) ?_, sumBy_zero]
    intro q hqm
    obtain ⟨q1, q2⟩ := q
    rw [hp q1 (List.mem_zip hqm).1, mul_zero]
  · rw [← sumBy_x_lin pf c1 c2 c3]
    rw [sumBy_congr_mem pf _ (fun _ => 0) ?_, sumBy_zero]
    intro p hpm
    rw [hp p hpm, mul_zero]
  · rw [← sumBy_y_lin pf c1 c2 c3]
    rw [sumBy_congr_mem pf _ (fun _ => 0) ?_, sumBy_zero]
    intro p hpm
    rw [hp p hpm, mul_zero]
  · rw [← sumBy_one_lin pf c1 c2 c3]
    exact sumBy_congr_mem pf _ (fun _ => 0) hp |>.trans (sumBy_zero pf)

lemma solve2_eq1 (m11 m12 m22 w1 w2 : K)
    (h : m11 * m22 - m12 * m12 ≠ 0) :
    (solve2 m11 m12 m22 w1 w2).1 * m11
      + (solve2 m11 m12 m22 w1 w2).2 * m12 = w1 := by
  simp only [solve2]
  field_simp
  ring

lemma solve2_eq2 (m11 m12 m22 w1 w2 : K)
    (h : m11 * m22 - m12 * m12 ≠ 0) :
    (solve2 m11 m12 m22 w1 w2).1 * m12
      + (solve2 m11 m12 m22 w1 w2).2 * m22 = w2 := by
  simp only [solve2]
  field_simp
  ring

/-- Schur complement identity for the principal block on coordinates
1, 2 of the matrix of det3. -/
lemma schur12 (sxx sxy sx syy sy n : K)
    (hd : det3 sxx sxy sx syy sy n = 0)
    (h12 : sxx * syy - sxy * sxy ≠ 0) :
    (solve2 sxx sxy syy sx sy).1 * sx
      + (solve2 sxx sxy syy sx sy).2 * sy = n := by
  simp only [solve2, det3] at *
  field_simp
  linear_combination -hd

/-- Schur complement identity for the principal block on coordinates
1, 3 of the matrix of det3. -/
lemma schur13 (sxx sxy sx syy sy n : K)
    (hd : det3 sxx sxy sx syy sy n = 0)
    (h13 : sxx * n - sx * sx ≠ 0) :
    (solve2 sxx sx n sxy sy).1 * sxy
      + (solve2 sxx sx n sxy sy).2 * sy = syy := by
  simp only [solve2, det3] at *
  field_simp
  linear_combination -hd

/-- Schur complement identity for the principal block on coordinates
2, 3 of the matrix of det3. -/
lemma schur23 (sxx sxy sx syy sy n : K)
    (hd : det3 sxx sxy sx syy sy n = 0)
    (h23 : syy * n - sy * sy ≠ 0) :
    (solve2 syy sy n sxy sx).1 * sxy
      + (solve2 syy sy n sxy sx).2 * sx = sxx := by
  simp only [solve2, det3] at *
  field_simp
  linear_combination -hd

lemma solveGram_of_det_ne (sxx sxy sx syy sy n v1 v2 v3 : K)
    (h : det3 sxx sxy sx syy sy n ≠ 0) :
    solveGram sxx sxy sx syy sy n v1 v2 v3
      = solve3 sxx sxy sx syy sy n v1 v2 v3 := by
  simp only [solveGram, if_pos h]

/-- On right-hand sides of Gram form (the target values of the zip
summed against x, against y and against 1), solveGram returns a solution
of the normal equations, whatever the rank of the Gram matrix. -/
lemma solveGram_normal (pf pt : List (K × K))
    (t : (K × K) × (K × K) → K) (v1 v2 v3 : K)
    (hv1 : v1 = sumBy (pf.zip pt) (fun q => q.1.1 * t q))
    (hv2 : v2 = sumBy (pf.zip pt) (fun q => q.1.2 * t q))
    (hv3 : v3 = sumBy (pf.zip pt) t) (u1 u2 u3 : K)
    (hu : solveGram (Sxx pf) (Sxy pf) (Sx pf) (Syy pf) (Sy pf) (Sn pf)
        v1 v2 v3 = (u1, u2, u3)) :
    u1 * Sxx pf + u2 * Sxy pf + u3 * Sx pf = v1 ∧
    u1 * Sxy pf + u2 * Syy pf + u3 * Sy pf = v2 ∧
    u1 * Sx pf + u2 * Sy pf + u3 * Sn pf = v3 := by
  simp only [solveGram] at hu
  split_ifs at hu with hdet h12 h13 h23 hxx hyy hn
  · -- full rank: the adjugate solution
    have h1 := solve3_eq1 (Sxx pf) (Sxy pf) (Sx pf) (Syy pf) (Sy pf)
      (Sn pf) v1 v2 v3 hdet
    have h2 := solve3_eq2 (Sxx pf) (Sxy pf) (Sx pf) (Syy pf) (Sy pf)
      (Sn pf) v1 v2 v3 hdet
    have h3 := solve3_eq3 (Sxx pf) (Sxy pf) (Sx pf) (Syy pf) (Sy pf)
      (Sn pf) v1 v2 v3 hdet
    rw [hu] at h1 h2 h3
    exact ⟨h1, h2, h3⟩
  · -- rank 2, block on coordinates 1, 2
    push_neg at hdet
    simp only [Prod.mk.injEq] at hu
    obtain ⟨hA, hB, hC⟩ := hu
    subst hA; subst hB; subst hC
    have E1 := solve2_eq1 (Sxx pf) (Sxy pf) (Syy pf) v1 v2 h12
    have E2 := solve2_eq2 (Sxx pf) (Sxy pf) (Syy pf) v1 v2 h12
    refine ⟨by linear_combination E1, by linear_combination E2, ?_⟩
    have hcx := solve2_eq1 (Sxx pf) (Sxy pf) (Syy pf) (Sx pf) (Sy pf) h12
    have hcy := solve2_eq2 (Sxx pf) (Sxy pf) (Syy pf) (Sx pf) (Sy pf) h12
    have hcs := schur12 (Sxx pf) (Sxy pf) (Sx pf) (Syy pf) (Sy pf) (Sn pf)
      hdet h12
    have hq : sumBy pf (fun p =>
        ((solve2 (Sxx pf) (Sxy pf) (Syy pf) (Sx pf) (Sy pf)).1 * p.1
          + (solve2 (Sxx pf) (Sxy pf) (Syy pf) (Sx pf) (Sy pf)).2 * p.2
          + (-1)) ^ 2) = 0 := by
      rw [sumBy_qform]
      linear_combination
        (solve2 (Sxx pf) (Sxy pf) (Syy pf) (Sx pf) (Sy pf)).1 * hcx
        + (solve2 (Sxx pf) (Sxy pf) (Syy pf) (Sx pf) (Sy pf)).2 * hcy - hcs
    obtain ⟨hzip, _, _, _⟩ := pointwise_transfer pf pt t
      (solve2 (Sxx pf) (Sxy pf) (Syy pf) (Sx pf) (Sy pf)).1
      (solve2 (Sxx pf) (Sxy pf) (Syy pf) (Sx pf) (Sy pf)).2 (-1) hq
    rw [← hv1, ← hv2, ← hv3] at hzip
    linear_combination
      (-(solve2 (Sxx pf) (Sxy pf) (Syy pf) v1 v2).1) * hcx
      + (-(solve2 (Sxx pf) (Sxy pf) (Syy pf) v1 v2).2) * hcy
      + (solve2 (Sxx pf) (Sxy pf) (Syy pf) (Sx pf) (Sy pf)).1 * E1
      + (solve2 (Sxx pf) (Sxy pf) (Syy pf) (Sx pf) (Sy pf)).2 * E2 + hzip
  · -- rank 2, block on coordinates 1, 3
    push_neg at hdet h12
    simp only [Prod.mk.injEq] at hu
    obtain ⟨hA, hB, hC⟩ := hu
    subst hA; subst hB; subst hC
    have E1 := solve2_eq1 (Sxx pf) (Sx pf) (Sn pf) v1 v3 h13
    have E3 := solve2_eq2 (Sxx pf) (Sx pf) (Sn pf) v1 v3 h13
    refine ⟨by linear_combination E1, ?_, by linear_combination E3⟩
    have hcA := solve2_eq1 (Sxx pf) (Sx pf) (Sn pf) (Sxy pf) (Sy pf) h13
    have hcB := solve2_eq2 (Sxx pf) (Sx pf) (Sn pf) (Sxy pf) (Sy pf) h13
    have hcS := schur13 (Sxx pf) (Sxy pf) (Sx pf) (Syy pf) (Sy pf) (Sn pf)
      hdet h13
    have hq : sumBy pf (fun p =>
        ((solve2 (Sxx pf) (Sx pf) (Sn pf) (Sxy pf) (Sy pf)).1 * p.1
          + (-1) * p.2
          + (solve2 (Sxx pf) (Sx pf) (Sn pf) (Sxy pf) (Sy pf)).2) ^ 2)
        = 0 := by
      rw [sumBy_qform]
      linear_combination
        (solve2 (Sxx pf) (Sx pf) (Sn pf) (Sxy pf) (Sy pf)).1 * hcA
        + (solve2 (Sxx pf) (Sx pf) (Sn pf) (Sxy pf) (Sy pf)).2 * hcB - hcS
    obtain ⟨hzip, _, _, _⟩ := pointwise_transfer pf pt t
      (solve2 (Sxx pf) (Sx pf) (Sn pf) (Sxy pf) (Sy pf)).1 (-1)
      (solve2 (Sxx pf) (Sx pf) (Sn pf) (Sxy pf) (Sy pf)).2 hq
    rw [← hv1, ← hv2, ← hv3] at hzip
    linear_combination
      (-(solve2 (Sxx pf) (Sx pf) (Sn pf) v1 v3).1) * hcA
      + (-(solve2 (Sxx pf) (Sx pf) (Sn pf) v1 v3).2) * hcB
      + (solve2 (Sxx pf) (Sx pf) (Sn pf) (Sxy pf) (Sy pf)).1 * E1
      + (solve2 (Sxx pf) (Sx pf) (Sn pf) (Sxy pf) (Sy pf)).2 * E3 + hzip
  · -- rank 2, block on coordinates 2, 3
    push_neg at hdet h12 h13
    simp only [Prod.mk.injEq] at hu
    obtain ⟨hA, hB, hC⟩ := hu
    subst hA; subst hB; subst hC
    have E2 := solve2_eq1 (Syy pf) (Sy pf) (Sn pf) v2 v3 h23
    have E3 := solve2_eq2 (Syy pf) (Sy pf) (Sn pf) v2 v3 h23
    refine ⟨?_, by linear_combination E2, by linear_combination E3⟩
    have hcA := solve2_eq1 (Syy pf) (Sy pf) (Sn pf) (Sxy pf) (Sx pf) h23
    have hcB := solve2_eq2 (Syy pf) (Sy pf) (Sn pf) (Sxy pf) (Sx pf) h23
    have hcS := schur23 (Sxx pf) (Sxy pf) (Sx pf) (Syy pf) (Sy pf) (Sn pf)
      hdet h23
    have hq : sumBy pf (fun p =>
        ((-1) * p.1
          + (solve2 (Syy pf) (Sy pf) (Sn pf) (Sxy pf) (Sx pf)).1 * p.2
          + (solve2 (Syy pf) (Sy pf) (Sn pf) (Sxy pf) (Sx pf)).2) ^ 2)
        = 0 := by
      rw [sumBy_qform]
      linear_combination
        (solve2 (Syy pf) (Sy pf) (Sn pf) (Sxy pf) (Sx pf)).1 * hcA
        + (solve2 (Syy pf) (Sy pf) (Sn pf) (Sxy pf) (Sx pf)).2 * hcB - hcS
    obtain ⟨hzip, _, _, _⟩ := pointwise_transfer pf pt t (-1)
      (solve2 (Syy pf) (Sy pf) (Sn pf) (Sxy pf) (Sx pf)).1
      (solve2 (Syy pf) (Sy pf) (Sn pf) (Sxy pf) (Sx pf)).2 hq
    rw [← hv1, ← hv2, ← hv3] at hzip
    linear_combination
      (-(solve2 (Syy pf) (Sy pf) (Sn pf) v2 v3).1) * hcA
      + (-(solve2 (Syy pf) (Sy pf) (Sn pf) v2 v3).2) * hcB
      + (solve2 (Syy pf) (Sy pf) (Sn pf) (Sxy pf) (Sx pf)).1 * E2
      + (solve2 (Syy pf) (Sy pf) (Sn pf) (Sxy pf) (Sx pf)).2 * E3 + hzip
  · -- rank 1 carried by the x coordinate
    push_neg at hdet h12 h13 h23
    simp only [Prod.mk.injEq] at hu
    obtain ⟨hA, hB, hC⟩ := hu
    subst hA; subst hB; subst hC
    have hqA : sumBy pf (fun p =>
        (Sxy pf * p.1 + (-(Sxx pf)) * p.2 + 0) ^ 2) = 0 := by
      rw [sumBy_qform]
      linear_combination (Sxx pf) * h12
    obtain ⟨hzipA, _, _, _⟩ := pointwise_transfer pf pt t (Sxy pf)
      (-(Sxx pf)) 0 hqA
    rw [← hv1, ← hv2, ← hv3] at hzipA
    have hqB : sumBy pf (fun p =>
        (Sx pf * p.1 + 0 * p.2 + (-(Sxx pf))) ^ 2) = 0 := by
      rw [sumBy_qform]
      linear_combination (Sxx pf) * h13
    obtain ⟨hzipB, _, _, _⟩ := pointwise_transfer pf pt t (Sx pf) 0
      (-(Sxx pf)) hqB
    rw [← hv1, ← hv2, ← hv3] at hzipB
    refine ⟨by field_simp, ?_, ?_⟩
    · field_simp
      linear_combination hzipA
    · field_simp
      linear_combination hzipB
  · -- rank 1 carried by the y coordinate
    push_neg at hdet h12 h13 h23 hxx
    simp only [Prod.mk.injEq] at hu
    obtain ⟨hA, hB, hC⟩ := hu
    subst hA; subst hB; subst hC
    have hq1 : sumBy pf (fun p => (1 * p.1 + 0 * p.2 + 0) ^ 2) = 0 := by
      rw [sumBy_qform]
      linear_combination hxx
    obtain ⟨hz1, _, hy1, ho1⟩ := pointwise_transfer pf pt t 1 0 0 hq1
    rw [← hv1, ← hv2, ← hv3] at hz1
    have hq2 : sumBy pf (fun p =>
        (0 * p.1 + Sy pf * p.2 + (-(Syy pf))) ^ 2) = 0 := by
      rw [sumBy_qform]
      linear_combination (Syy pf) * h23
    obtain ⟨hz2, _, _, _⟩ := pointwise_transfer pf pt t 0 (Sy pf)
      (-(Syy pf)) hq2
    rw [← hv1, ← hv2, ← hv3] at hz2
    have hxy0 : Sxy pf = 0 := by linarith
    have hv10 : v1 = 0 := by linarith
    refine ⟨?_, by field_simp, ?_⟩
    · rw [hxy0, hv10]
      ring
    · field_simp
      linear_combination hz2
  · -- rank 1 carried by the constant coordinate
    push_neg at hdet h12 h13 h23 hxx hyy
    simp only [Prod.mk.injEq] at hu
    obtain ⟨hA, hB, hC⟩ := hu
    subst hA; subst hB; subst hC
    have hq1 : sumBy pf (fun p => (1 * p.1 + 0 * p.2 + 0) ^ 2) = 0 := by
      rw [sumBy_qform]
      linear_combination hxx
    obtain ⟨hz1, _, hy1, ho1⟩ := pointwise_transfer pf pt t 1 0 0 hq1
    rw [← hv1, ← hv2, ← hv3] at hz1
    have hq2 : sumBy pf (fun p => (0 * p.1 + 1 * p.2 + 0) ^ 2) = 0 := by
      rw [sumBy_qform]
      linear_combination hyy
    obtain ⟨hz2, _, _, ho2⟩ := pointwise_transfer pf pt t 0 1 0 hq2
    rw [← hv1, ← hv2, ← hv3] at hz2
    have hSx0 : Sx pf = 0 := by linarith
    have hSy0 : Sy pf = 0 := by linarith
    have hv10 : v1 = 0 := by linarith
    have hv20 : v2 = 0 := by linarith
    refine ⟨?_, ?_, by field_simp⟩
    · rw [hSx0, hv10]
      ring
    · rw [hSy0, hv20]
      ring
  · -- the zero Gram matrix
    push_neg at hdet h12 h13 h23 hxx hyy hn
    simp only [Prod.mk.injEq] at hu
    obtain ⟨hA, hB, hC⟩ := hu
    subst hA; subst hB; subst hC
    have hq1 : sumBy pf (fun p => (1 * p.1 + 0 * p.2 + 0) ^ 2) = 0 := by
      rw [sumBy_qform]
      linear_combination hxx
    obtain ⟨hz1, _, _, _⟩ := pointwise_transfer pf pt t 1 0 0 hq1
    rw [← hv1, ← hv2, ← hv3] at hz1
    have hq2 : sumBy pf (fun p => (0 * p.1 + 1 * p.2 + 0) ^ 2) = 0 := by
      rw [sumBy_qform]
      linear_combination hyy
    obtain ⟨hz2, _, _, _⟩ := pointwise_transfer pf pt t 0 1 0 hq2
    rw [← hv1, ← hv2, ← hv3] at hz2
    have hq3 : sumBy pf (fun p => (0 * p.1 + 0 * p.2 + 1) ^ 2) = 0 := by
      rw [sumBy_qform]
      linear_combination hn
    obtain ⟨hz3, _, _, _⟩ := pointwise_transfer pf pt t 0 0 1 hq3
    rw [← hv1, ← hv2, ← hv3] at hz3
    have hv10 : v1 = 0 := by linarith
    have hv20 : v2 = 0 := by linarith
    have hv30 : v3 = 0 := by linarith
    refine ⟨?_, ?_, ?_⟩ <;> simp only [hv10, hv20, hv30] <;> ring

end GramSolver

end crswitch

namespace crswitch

/-- C1: on every pair of equal-length sequences of at least 3 paired
points, approximate_transform returns exactly column 0 followed by
column 1 of the least squares solution matrix, and this 6-tuple
(a, b, c, d, e, f) minimizes the total squared residual
sum of (a x + b y + c - x′)² + (d x + e y + f - y′)² over all
coefficient 6-tuples; no non-collinearity assumption is needed, since
every normal-equations solution minimizes, whatever the rank of the
Gram matrix. -/
theorem approximate_transform_minimizes {K : Type} [LinearOrderedField K]
    (pf pt : List (K × K)) (hlen : pf.length = pt.length)
    (_hN : 3 ≤ pf.length) :
    approximate_transform pf pt
      = some ((lstsq pf pt).1.1, (lstsq pf pt).1.2.1, (lstsq pf pt).1.2.2,
          (lstsq pf pt).2.1, (lstsq pf pt).2.2.1, (lstsq pf pt).2.2.2) ∧
    ∀ t2 : K × K × K × K × K × K,
      residual pf pt ((lstsq pf pt).1.1, (lstsq pf pt).1.2.1,
          (lstsq pf pt).1.2.2, (lstsq pf pt).2.1, (lstsq pf pt).2.2.1,
          (lstsq pf pt).2.2.2)
        ≤ residual pf pt t2 := by
  have hle : pf.length ≤ pt.length := hlen.le
  constructor
  · simp only [approximate_transform, if_pos hlen]
  · intro t2
    obtain ⟨w1, w2, w3, w4, w5, w6⟩ := t2
    rcases hX : lstsq pf pt with ⟨⟨u1, u2, u3⟩, u4, u5, u6⟩
    have hcol1 : solveGram (Sxx pf) (Sxy pf) (Sx pf) (Syy pf) (Sy pf)
        (Sn pf) (sumBy (pf.zip pt) (fun q => q.1.1 * q.2.1))
        (sumBy (pf.zip pt) (fun q => q.1.2 * q.2.1))
        (sumBy (pf.zip pt) (fun q => q.2.1)) = (u1, u2, u3) :=
      congrArg Prod.fst hX
    have hcol2 : solveGram (Sxx pf) (Sxy pf) (Sx pf) (Syy pf) (Sy pf)
        (Sn pf) (sumBy (pf.zip pt) (fun q => q.1.1 * q.2.2))
        (sumBy (pf.zip pt) (fun q => q.1.2 * q.2.2))
        (sumBy (pf.zip pt) (fun q => q.2.2)) = (u4, u5, u6) :=
      congrArg Prod.snd hX
    obtain ⟨e1, e2, e3⟩ := solveGram_normal pf pt (fun q => q.2.1)
      (sumBy (pf.zip pt) (fun q => q.1.1 * q.2.1))
      (sumBy (pf.zip pt) (fun q => q.1.2 * q.2.1))
      (sumBy (pf.zip pt) (fun q => q.2.1)) rfl rfl rfl u1 u2 u3 hcol1
    obtain ⟨e4, e5, e6⟩ := solveGram_normal pf pt (fun q => q.2.2)
      (sumBy (pf.zip pt) (fun q => q.1.1 * q.2.2))
      (sumBy (pf.zip pt) (fun q => q.1.2 * q.2.2))
      (sumBy (pf.zip pt) (fun q => q.2.2)) rfl rfl rfl u4 u5 u6 hcol2
    have n1 : sumBy (pf.zip pt)
        (fun q => (u1 * q.1.1 + u2 * q.1.2 + u3 - q.2.1) * q.1.1) = 0 := by
      have h := zipSum_x_res (pf.zip pt) u1 u2 u3 (fun q => q.2.1)
      simp only [] at h
      rw [zip_Sxx pf pt hle, zip_Sxy pf pt hle, zip_Sx pf pt hle] at h
      rw [h]
      linear_combination e1
    have n2 : sumBy (pf.zip pt)
        (fun q => (u1 * q.1.1 + u2 * q.1.2 + u3 - q.2.1) * q.1.2) = 0 := by
      have h := zipSum_y_res (pf.zip pt) u1 u2 u3 (fun q => q.2.1)
      simp only [] at h
      rw [zip_Sxy pf pt hle, zip_Syy pf pt hle, zip_Sy pf pt hle] at h
      rw [h]
      linear_combination e2
    have n3 : sumBy (pf.zip pt)
        (fun q => u1 * q.1.1 + u2 * q.1.2 + u3 - q.2.1) = 0 := by
      have h := zipSum_one_res (pf.zip pt) u1 u2 u3 (fun q => q.2.1)
      simp only [] at h
      rw [zip_Sx pf pt hle, zip_Sy pf pt hle, zip_Sn pf pt hle] at h
      rw [h]
      linear_combination e3
    have n4 : sumBy (pf.zip pt)
        (fun q => (u4 * q.1.1 + u5 * q.1.2 + u6 - q.2.2) * q.1.1) = 0 := by
      have h := zipSum_x_res (pf.zip pt) u4 u5 u6 (fun q => q.2.2)
      simp only [] at h
      rw [zip_Sxx pf pt hle, zip_Sxy pf pt hle, zip_Sx pf pt hle] at h
      rw [h]
      linear_combination e4
    have n5 : sumBy (pf.zip pt)
        (fun q => (u4 * q.1.1 + u5 * q.1.2 + u6 - q.2.2) * q.1.2) = 0 := by
      have h := zipSum_y_res (pf.zip pt) u4 u5 u6 (fun q => q.2.2)
      simp only [] at h
      rw [zip_Sxy pf pt hle, zip_Syy pf pt hle, zip_Sy pf pt hle] at h
      rw [h]
      linear_combination e5
    have n6 : sumBy (pf.zip pt)
        (fun q => u4 * q.1.1 + u5 * q.1.2 + u6 - q.2.2) = 0 := by
      have h := zipSum_one_res (pf.zip pt) u4 u5 u6 (fun q => q.2.2)
      simp only [] at h
      rw [zip_Sx pf pt hle, zip_Sy pf pt hle, zip_Sn pf pt hle] at h
      rw [h]
      linear_combination e6
    have hexp := residual_expand (pf.zip pt) u1 u2 u3 u4 u5 u6
      w1 w2 w3 w4 w5 w6
    rw [n1, n2, n3, n4, n5, n6] at hexp
    have s1 : 0 ≤ sumBy (pf.zip pt)
        (fun q => ((w1 - u1) * q.1.1 + (w2 - u2) * q.1.2 + (w3 - u3)) ^ 2) :=
      sumBy_sq_nonneg _ _
    have s2 : 0 ≤ sumBy (pf.zip pt)
        (fun q => ((w4 - u4) * q.1.1 + (w5 - u5) * q.1.2 + (w6 - u6)) ^ 2) :=
      sumBy_sq_nonneg _ _
    simp only [residual]
    linarith [hexp, s1, s2]

end crswitch

namespace crswitch

/-- C9: since (x_range - 1) % b is at most b - 1, the trailing term
max(b - 1, (x_range - 1) % b) // 2 always equals (b - 1) // 2, the
trailing sample is b * (x_range // b) + (b - 1) // 2 whatever the width
of the trailing block, and consequently the y-axis sample list of
generate_points(x, y, b) equals the x-axis sample list of
generate_points(y, x, b), although the source reads x_range inside the
y trailing term. -/
theorem trailing_sample_and_axis_symmetry (b : Int) (hb : 1 ≤ b) :
    (∀ x : Int, 1 ≤ x → x.fmod b ≠ 0 →
      (max (b - 1) ((x - 1).fmod b)).fdiv 2 = (b - 1).fdiv 2 ∧
      x_samples x b
        = (List.range (x.fdiv b).toNat).map
            (fun (i : Nat) => b * (i : Int) + (b - 1).fdiv 2)
          ++ [b * x.fdiv b + (b - 1).fdiv 2]) ∧
    ∀ x2 y2 : Int, 0 ≤ x2 → 0 ≤ y2 → y_samples x2 y2 b = x_samples y2 b := by
  have hb0 : (0 : Int) < b := hb
  constructor
  · intro x _ hr
    refine ⟨by rw [max_trailing_eq hb0], ?_⟩
    simp only [x_samples, if_pos hr, max_trailing_eq hb0]
  · intro x2 y2 _ _
    simp only [y_samples, x_samples, max_trailing_eq hb0]

/-- Witness for C9: the trailing term at x_range = 10 with block size 3,
and the swapped-range sample lists for ranges 5 and 7 at the boundary
block size 1. -/
theorem trailing_sample_and_axis_symmetry_witness :
    (max ((3 : Int) - 1) (((10 : Int) - 1).fmod 3)).fdiv 2
        = ((3 : Int) - 1).fdiv 2 ∧
    y_samples 5 7 1 = x_samples 7 1 :=
  ⟨((trailing_sample_and_axis_symmetry 3 (by decide)).1 10 (by decide)
      (by decide)).1,
   (trailing_sample_and_axis_symmetry 1 (by decide)).2 5 7 (by decide)
     (by decide)⟩

/-- C4: generate_points returns ceil(x_range / b) times ceil(y_range / b)
points, ordered as the cross product of the two axis sample lists with
the outer loop over x; a zero range gives the empty list, and positive
ranges both at most b give a single point. -/
theorem generate_points_count (x y b : Int) (hx : 0 ≤ x) (hy : 0 ≤ y)
    (hb : 0 < b) :
    (generate_points x y b).length
      = ((x + b - 1).fdiv b).toNat * ((y + b - 1).fdiv b).toNat ∧
    generate_points x y b
      = (x_samples x b).bind
          (fun xv => (y_samples x y b).map (fun yv => (xv, yv))) ∧
    ((x = 0 ∨ y = 0) → generate_points x y b = []) ∧
    (1 ≤ x → 1 ≤ y → x ≤ b → y ≤ b → (generate_points x y b).length = 1) := by
  have hlen : (generate_points x y b).length
      = ((x + b - 1).fdiv b).toNat * ((y + b - 1).fdiv b).toNat := by
    simp only [generate_points]
    rw [length_bind_map, x_samples_length x b hx hb,
      y_samples_length x y b hy hb]
  refine ⟨hlen, rfl, ?_, ?_⟩
  · intro hxy
    have h0 : (generate_points x y b).length = 0 := by
      rw [hlen]
      rcases hxy with h | h
      · subst h
        have hz : ((0 : Int) + b - 1).fdiv b = 0 := by
          rw [Int.fdiv_eq_ediv _ hb.le,
            Int.ediv_eq_zero_of_lt (by omega) (by omega)]
        rw [hz]
        simp
      · subst h
        have hz : ((0 : Int) + b - 1).fdiv b = 0 := by
          rw [Int.fdiv_eq_ediv _ hb.le,
            Int.ediv_eq_zero_of_lt (by omega) (by omega)]
        rw [hz]
        simp
    exact List.length_eq_zero.mp h0
  · intro h1x h1y hxb hyb
    rw [hlen]
    have e1 : (x + b - 1).fdiv b = 1 := by
      rw [Int.fdiv_eq_ediv _ hb.le]
      have hrw : x + b - 1 = (x - 1) + b * 1 := by ring
      rw [hrw, Int.add_mul_ediv_left _ _ hb.ne',
        Int.ediv_eq_zero_of_lt (by omega) (by omega)]
      norm_num
    have e2 : (y + b - 1).fdiv b = 1 := by
      rw [Int.fdiv_eq_ediv _ hb.le]
      have hrw : y + b - 1 = (y - 1) + b * 1 := by ring
      rw [hrw, Int.add_mul_ediv_left _ _ hb.ne',
        Int.ediv_eq_zero_of_lt (by omega) (by omega)]
      norm_num
    rw [e1, e2]
    rfl

/-- Witness for C4 on the 10 by 10 grid with block size 3 (16 points)
and the single-block case of the 2 by 2 grid with block size 3. -/
theorem generate_points_count_witness :
    (generate_points 10 10 3).length
      = (((10 : Int) + 3 - 1).fdiv 3).toNat
        * (((10 : Int) + 3 - 1).fdiv 3).toNat ∧
    (generate_points 2 2 3).length = 1 :=
  ⟨(generate_points_count 10 10 3 (by decide) (by decide) (by decide)).1,
   (generate_points_count 2 2 3 (by decide) (by decide) (by decide)).2.2.2
     (by decide) (by decide) (by decide) (by decide)⟩

end crswitch

namespace crswitch

/-- C5: if the target points are exactly the images of at least 3
non-collinear source points (Gram matrix invertible) under an affine
coefficient tuple, approximate_transform returns exactly that tuple, in
the exact arithmetic of any linear ordered field. -/
theorem approximate_transform_exact_recovery {K : Type}
    [LinearOrderedField K] (pf : List (K × K)) (t : K × K × K × K × K × K)
    (_hN : 3 ≤ pf.length) (hdet : detM pf ≠ 0) :
    approximate_transform pf (pf.map (affineApply t)) = some t := by
  obtain ⟨a, b, c, d, e, f⟩ := t
  have hdet3 : det3 (Sxx pf) (Sxy pf) (Sx pf) (Syy pf) (Sy pf) (Sn pf)
      ≠ 0 := hdet
  have hz : pf.zip (pf.map (affineApply (a, b, c, d, e, f)))
      = pf.map (fun p => (p, affineApply (a, b, c, d, e, f) p)) :=
    zip_self_map pf _
  have hv1 : sumBy (pf.zip (pf.map (affineApply (a, b, c, d, e, f))))
      (fun q => q.1.1 * q.2.1) = a * Sxx pf + b * Sxy pf + c * Sx pf := by
    rw [hz, sumBy_map]
    simpa [affineApply] using sumBy_x_lin pf a b c
  have hv2 : sumBy (pf.zip (pf.map (affineApply (a, b, c, d, e, f))))
      (fun q => q.1.2 * q.2.1) = a * Sxy pf + b * Syy pf + c * Sy pf := by
    rw [hz, sumBy_map]
    simpa [affineApply] using sumBy_y_lin pf a b c
  have hv3 : sumBy (pf.zip (pf.map (affineApply (a, b, c, d, e, f))))
      (fun q => q.2.1) = a * Sx pf + b * Sy pf + c * Sn pf := by
    rw [hz, sumBy_map]
    simpa [affineApply] using sumBy_one_lin pf a b c
  have hv4 : sumBy (pf.zip (pf.map (affineApply (a, b, c, d, e, f))))
      (fun q => q.1.1 * q.2.2) = d * Sxx pf + e * Sxy pf + f * Sx pf := by
    rw [hz, sumBy_map]
    simpa [affineApply] using sumBy_x_lin pf d e f
  have hv5 : sumBy (pf.zip (pf.map (affineApply (a, b, c, d, e, f))))
      (fun q => q.1.2 * q.2.2) = d * Sxy pf + e * Syy pf + f * Sy pf := by
    rw [hz, sumBy_map]
    simpa [affineApply] using sumBy_y_lin pf d e f
  have hv6 : sumBy (pf.zip (pf.map (affineApply (a, b, c, d, e, f))))
      (fun q => q.2.2) = d * Sx pf + e * Sy pf + f * Sn pf := by
    rw [hz, sumBy_map]
    simpa [affineApply] using sumBy_one_lin pf d e f
  have hL : lstsq pf (pf.map (affineApply (a, b, c, d, e, f)))
      = ((a, b, c), (d, e, f)) := by
    simp only [lstsq]
    rw [hv1, hv2, hv3, hv4, hv5, hv6]
    rw [solveGram_of_det_ne _ _ _ _ _ _ _ _ _ hdet3,
      solveGram_of_det_ne _ _ _ _ _ _ _ _ _ hdet3,
      solve3_recover _ _ _ _ _ _ a b c hdet3,
      solve3_recover _ _ _ _ _ _ d e f hdet3]
  have hlen : pf.length = (pf.map (affineApply (a, b, c, d, e, f))).length :=
    (List.length_map _ _).symm
  simp only [approximate_transform, if_pos hlen, hL]

/-- Witness for C5: three non-collinear rational points pushed through
the affine tuple (2, 0, 1, 0, 3, 5) are fitted back to exactly that
tuple. -/
theorem approximate_transform_exact_recovery_witness :
    approximate_transform [((0 : ℚ), (0 : ℚ)), (1, 0), (0, 1)]
        ([((0 : ℚ), (0 : ℚ)), (1, 0), (0, 1)].map
          (affineApply (2, 0, 1, 0, 3, 5)))
      = some (2, 0, 1, 0, 3, 5) :=
  approximate_transform_exact_recovery _ _ (by decide)
    (by norm_num [detM, det3, Sxx, Sxy, Sx, Syy, Sy, Sn, sumBy])

/-- Witness for C1 on three non-collinear rational points with targets
(1, 2), (3, 4), (5, 6): the fitted tuple beats the competitor tuple of
all ones. -/
theorem approximate_transform_minimizes_witness :
    residual [((0 : ℚ), (0 : ℚ)), (1, 0), (0, 1)] [((1 : ℚ), (2 : ℚ)), (3, 4), (5, 6)]
        ((lstsq [((0 : ℚ), (0 : ℚ)), (1, 0), (0, 1)] [((1 : ℚ), (2 : ℚ)), (3, 4), (5, 6)]).1.1,
         (lstsq [((0 : ℚ), (0 : ℚ)), (1, 0), (0, 1)] [((1 : ℚ), (2 : ℚ)), (3, 4), (5, 6)]).1.2.1,
         (lstsq [((0 : ℚ), (0 : ℚ)), (1, 0), (0, 1)] [((1 : ℚ), (2 : ℚ)), (3, 4), (5, 6)]).1.2.2,
         (lstsq [((0 : ℚ), (0 : ℚ)), (1, 0), (0, 1)] [((1 : ℚ), (2 : ℚ)), (3, 4), (5, 6)]).2.1,
         (lstsq [((0 : ℚ), (0 : ℚ)), (1, 0), (0, 1)] [((1 : ℚ), (2 : ℚ)), (3, 4), (5, 6)]).2.2.1,
         (lstsq [((0 : ℚ), (0 : ℚ)), (1, 0), (0, 1)] [((1 : ℚ), (2 : ℚ)), (3, 4), (5, 6)]).2.2.2)
      ≤ residual [((0 : ℚ), (0 : ℚ)), (1, 0), (0, 1)] [((1 : ℚ), (2 : ℚ)), (3, 4), (5, 6)]
          (1, 1, 1, 1, 1, 1) :=
  (approximate_transform_minimizes
      [((0 : ℚ), (0 : ℚ)), (1, 0), (0, 1)] [((1 : ℚ), (2 : ℚ)), (3, 4), (5, 6)]
      (by decide) (by decide)).2
    (1, 1, 1, 1, 1, 1)

/-- C6: approximate_transform on sequences of different lengths is the
error case (np.linalg.lstsq raises an incompatible-dimensions error):
no result is produced and nothing is truncated or padded. -/
theorem approximate_transform_length_mismatch {K : Type}
    [LinearOrderedField K] (pf pt : List (K × K))
    (h : pf.length ≠ pt.length) :
    approximate_transform pf pt = none := by
  simp [approximate_transform, h]

/-- Witness for C6 with sequences of lengths 4 and 5. -/
theorem approximate_transform_length_mismatch_witness :
    approximate_transform
        [((0 : ℚ), (0 : ℚ)), (1, 0), (0, 1), (1, 1)]
        [((0 : ℚ), (0 : ℚ)), (1, 0), (0, 1), (1, 1), (2, 2)] = none :=
  approximate_transform_length_mismatch _ _ (by decide)

/-- C8: the sampler and the fitter are pure functions of their
arguments: two invocations with identical arguments return identical,
identically ordered results. -/
theorem generate_points_approximate_transform_deterministic :
    (∀ x y b : Int, generate_points x y b = generate_points x y b) ∧
    ∀ pf pt : List (ℚ × ℚ),
      approximate_transform pf pt = approximate_transform pf pt :=
  ⟨fun _ _ _ => rfl, fun _ _ => rfl⟩

/-- C7: the grid fitter first samples the grid, then maps every sample
through the pixel affine followed by the point projection, and fits an
affine to the resulting source-destination pairs. -/
theorem project_tuple_transform_grid_spec {K : Type} [LinearOrderedField K]
    (P : Projector K) (t : K × K × K × K × K × K)
    (x_range y_range bs : Int) :
    P.project_tuple_transform_grid t x_range y_range bs
      = approximate_transform
          ((generate_points x_range y_range bs).map
            (fun q => ((q.1 : K), (q.2 : K))))
          (((generate_points x_range y_range bs).map
            (fun q => ((q.1 : K), (q.2 : K)))).map
            (fun p => P.project_point (affineApply t p))) := by
  obtain ⟨a, b, c, d, e, f⟩ := t
  simp only [Projector.project_tuple_transform_grid,
    Projector.project_tuple_transform, Projector.project_points,
    affineApply, List.map_map]
  rfl

end crswitch

namespace crswitch

lemma lookup_setKey_ne {K : Type} (d : List (String × GVal K))
    (key k : String) (v : GVal K) (h : k ≠ key) :
    List.lookup k (setKey d key v) = List.lookup k d := by
  induction d with
  | nil =>
    have hf : (k == key) = false := by simp [h]
    simp [setKey, List.lookup, hf]
  | cons kv rest ih =>
    obtain ⟨k0, v0⟩ := kv
    simp only [setKey]
    by_cases h0 : k0 = key
    · subst h0
      have hf : (k == k0) = false := by simp [h]
      simp [List.lookup, hf]
    · simp only [if_neg h0]
      by_cases hk : k = k0
      · subst hk
        simp [List.lookup]
      · have hf : (k == k0) = false := by simp [hk]
        simp [List.lookup, hf, ih]

lemma lookup_dropSpecial {K : Type} (d : List (String × GVal K))
    (k : String) (h1 : k ≠ coordinates_key) (h2 : k ≠ geometries_key) :
    List.lookup k (dropSpecial d) = List.lookup k d := by
  induction d with
  | nil => rfl
  | cons kv rest ih =>
    obtain ⟨k0, v0⟩ := kv
    by_cases hc : k0 = coordinates_key ∨ k0 = geometries_key
    · have hcb : (!(k0 == coordinates_key || k0 == geometries_key))
          = false := by
        rcases hc with h | h <;> simp [h]
      have hdrop : dropSpecial ((k0, v0) :: rest) = dropSpecial rest := by
        simp only [dropSpecial, List.filter_cons]
        rw [if_neg (by simp [hcb])]
      have hk : (k == k0) = false := by
        rcases hc with h | h <;> subst h <;> simp [h1, h2]
      calc List.lookup k (dropSpecial ((k0, v0) :: rest))
          = List.lookup k (dropSpecial rest) := by rw [hdrop]
        _ = List.lookup k rest := ih
        _ = List.lookup k ((k0, v0) :: rest) := by simp [List.lookup, hk]
    · push_neg at hc
      have hcb : (!(k0 == coordinates_key || k0 == geometries_key))
          = true := by
        simp [hc.1, hc.2]
      have hdrop : dropSpecial ((k0, v0) :: rest)
          = (k0, v0) :: dropSpecial rest := by
        simp only [dropSpecial, List.filter_cons]
        rw [if_pos hcb]
      rw [hdrop]
      by_cases hk : k = k0
      · subst hk
        simp [List.lookup]
      · have hf : (k == k0) = false := by simp [hk]
        simp only [List.lookup, hf]
        exact ih

/-- C10: whenever project_geojson_object succeeds, every key of the
result other than coordinates and geometries holds the same value as in
the input object (the source deep copies those entries into a fresh
dict and assigns only the coordinates or geometries key, so the input
dict is never written to). -/
theorem project_geojson_object_preserves_keys {K : Type}
    [LinearOrderedField K] (P : Projector K) (interpolation : Option Int)
    (fuel : Nat) (g g2 : List (String × GVal K))
    (h : project_geojson_object P interpolation fuel g = some g2)
    (k : String) (h1 : k ≠ coordinates_key) (h2 : k ≠ geometries_key) :
    List.lookup k g2 = List.lookup k g := by
  cases fuel with
  | zero => simp [project_geojson_object] at h
  | succ fuel =>
    simp only [project_geojson_object] at h
    rcases Option.map_eq_some'.mp h with ⟨kv, hkv, hg2⟩
    have hk1 : kv.1 = coordinates_key ∨ kv.1 = geometries_key := by
      split at hkv
      · split at hkv
        · split at hkv
          · rcases Option.map_eq_some'.mp hkv with ⟨rs, _, hkveq⟩
            right
            rw [← hkveq]
          · exact absurd hkv (by simp)
        · rcases Option.map_eq_some'.mp hkv with ⟨v, _, hkveq⟩
          left
          rw [← hkveq]
      · exact absurd hkv (by simp)
    rw [← hg2]
    have hkne : k ≠ kv.1 := by
      rcases hk1 with hcase | hcase <;> rw [hcase]
      · exact h1
      · exact h2
    rw [lookup_setKey_ne _ _ _ _ hkne]
    exact lookup_dropSpecial g k h1 h2

end crswitch

namespace crswitch

/-- Witness for C10: projecting a concrete Point object through the
identity projector keeps the value of its name key. -/
theorem project_geojson_object_preserves_keys_witness :
    List.lookup (("name"))
        [(type_key, GVal.str (("Point"))), ((("name")), GVal.str (("t"))),
         (coordinates_key, GVal.arr [GVal.num (1 : ℚ), GVal.num 2])]
      = List.lookup (("name"))
        [(type_key, GVal.str (("Point"))), ((("name")), GVal.str (("t"))),
         (coordinates_key, GVal.arr [GVal.num (1 : ℚ), GVal.num 2])] :=
  project_geojson_object_preserves_keys (Projector.mk (fun p => p)) none 1
    [(type_key, GVal.str (("Point"))), ((("name")), GVal.str (("t"))),
     (coordinates_key, GVal.arr [GVal.num (1 : ℚ), GVal.num 2])]
    [(type_key, GVal.str (("Point"))), ((("name")), GVal.str (("t"))),
     (coordinates_key, GVal.arr [GVal.num (1 : ℚ), GVal.num 2])]
    (by rfl) (("name")) (by decide) (by decide)

end crswitch
